import Mathlib

/-! Overview.

A shallow embedding of ICU's machine-learning break engine for Japanese
phrase breaking (`icu4c/source/common/mlbe.h`).  The repository ships only
the interface header; every algorithmic body below is therefore modelled
from the specification of the engine, with the declarations, field layouts
and documentation comments of `mlbe.h` as the authoritative shapes.

Code points are modelled as natural numbers, UTF-16 code-unit counts are
computed explicitly, and the weight table is an association list from
feature-key strings to integer weights.
-/

/-- A Unicode code point (`UChar32` in the source). -/
abbrev UChar32 := Nat

/-- Number of UTF-16 code units occupied by a code point: 2 for a
surrogate pair (code points at or above `0x10000`), otherwise 1. -/
def charLength (ch : UChar32) : Nat :=
  if 0x10000 ≤ ch then 2 else 1

/-- Modelled from the spec: the reserved "no character" code point carried
by sentinel elements used to pad the context window at string edges.  It
lies outside the valid code-point range. -/
def sentinelChar : UChar32 := 0x110000

/-- Zero-padded fixed-width 3-digit decimal rendering of a block id, as
described by `getUnicodeBlock`'s documentation ("3 digits with '0' added
in the beginning if the code is less than 3 digits"). -/
def pad3 (n : Nat) : String :=
  String.mk [Nat.digitChar (n / 100 % 10), Nat.digitChar (n / 10 % 10), Nat.digitChar (n % 10)]

/-- Modelled from the spec: the fixed sentinel block code assigned to the
reserved sentinel code point; distinct from every real block code because
real Unicode block identifiers are far smaller than 999. -/
def sentinelBlockCode : String := pad3 999

/-- Modelled from the spec: body of `MlBreakEngine::getUnicodeBlock` is
missing from the repository sources.  Looks up the code point's Unicode
block identifier through the external block-property facility `blockIdOf`
and formats it as a fixed-width zero-padded 3-digit decimal string; the
reserved sentinel code point maps to the fixed sentinel code. -/
def getUnicodeBlock (blockIdOf : UChar32 → Nat) (ch : UChar32) : String :=
  if ch = sentinelChar then sentinelBlockCode else pad3 (blockIdOf ch)

/-- Structure `Element` from `mlbe.h`: a character together with its Unicode block
code (`char16_t ublock[4]`) and a length field whose accessor is
documented in the header as returning "The unicode block length". -/
structure Element where
  character : UChar32
  ublock : String
  length : Nat
deriving DecidableEq, Repr

/-- The default-constructed `Element`. -/
def Element.init : Element := ⟨0, "", 0⟩

/-- Method `Element::setCharAndUblock`: stores the character and its block-code
string; the stored length is the block string's length, per the header's
documentation of `getLength` ("@return The unicode block length"). -/
def Element.setCharAndUblock (_e : Element) (ch : UChar32) (ublock : String) : Element :=
  ⟨ch, ublock, ublock.length⟩

/-- Accessor `Element::getCharacter`. -/
def Element.getCharacter (e : Element) : UChar32 := e.character

/-- Accessor `Element::getUblock`. -/
def Element.getUblock (e : Element) : String := e.ublock

/-- Accessor `Element::getLength`. -/
def Element.getLength (e : Element) : Nat := e.length

/-- A break / no-break decision of the boundary evaluator. -/
inductive Decision where
  | breakAt : Decision
  | noBreak : Decision
deriving DecidableEq, Repr

/-- Modelled from the spec: the thirteen fixed n-gram feature patterns over
the six-element context window — six single-position patterns, three
two-position patterns and four three-position patterns, each written as a
tag string plus the start index and width of the contiguous window slice
it observes. -/
def featurePatterns : List (String × Nat × Nat) :=
  [("UW1:", 0, 1), ("UW2:", 1, 1), ("UW3:", 2, 1),
   ("UW4:", 3, 1), ("UW5:", 4, 1), ("UW6:", 5, 1),
   ("BW1:", 1, 2), ("BW2:", 2, 2), ("BW3:", 3, 2),
   ("TW1:", 0, 3), ("TW2:", 1, 3), ("TW3:", 2, 3), ("TW4:", 3, 3)]

/-- The canonical feature key of one pattern: its tag concatenated with the
block codes in the contiguous window slice the pattern covers. -/
def sliceKey (blocks : List String) (p : String × Nat × Nat) : String :=
  p.1 ++ String.join ((blocks.drop p.2.1).take p.2.2)

/-- Modelled from the spec: the thirteen feature keys generated from the
six block codes of a context window. -/
def featureKeys (blocks : List String) : List String :=
  featurePatterns.map (sliceKey blocks)

/-- The engine state of `MlBreakEngine` (`mlbe.h`): the two character-class
sets, the loaded weight table `fModel` and the derived scalar
`fNegativeSum`.  Sets are modelled by their membership predicates and the
table by an association list. -/
structure MlBreakEngine where
  fDigitOrOpenPunctuationOrAlphabetSet : UChar32 → Bool
  fClosePunctuationSet : UChar32 → Bool
  fModel : List (String × Int)
  fNegativeSum : Int

/-- Weight lookup in the loaded model: the stored weight when the key is
present, and 0 for an absent key (a total function over the key space). -/
def modelLookup (m : List (String × Int)) (k : String) : Int :=
  match m with
  | [] => 0
  | (k', v) :: rest => if k' = k then v else modelLookup rest k

/-- Modelled from the spec: the sum of every weight value in the table
that is less than zero (`fNegativeSum`). -/
def negativeSum (m : List (String × Int)) : Int :=
  match m with
  | [] => 0
  | (_, v) :: rest => (if v < 0 then v else 0) + negativeSum rest

/-- The summed model score of a list of feature keys. -/
def sumLookup (m : List (String × Int)) (ks : List String) : Int :=
  (ks.map (modelLookup m)).sum

/-- Modelled from the spec: the fast-path linguistic heuristics applied
before the model is consulted.  A boundary is never placed immediately
before a character in the close-punctuation set, and transitions touching
the digit / open-punctuation / alphabet set receive a deterministic
no-break classification.  Returns `none` when no fast-path rule matches. -/
def fastPath (eng : MlBreakEngine) (w : List Element) : Option Decision :=
  match w with
  | [_, _, e3, e4, _, _] =>
    if eng.fClosePunctuationSet e4.character then some Decision.noBreak
    else if eng.fDigitOrOpenPunctuationOrAlphabetSet e3.character ||
            eng.fDigitOrOpenPunctuationOrAlphabetSet e4.character then some Decision.noBreak
    else none
  | _ => none

/-- The six block codes recorded in a context window. -/
def windowBlocks (w : List Element) : List String := w.map Element.getUblock

/-- Modelled from the spec: body of `MlBreakEngine::evaluateBreakpoint` is
missing from the repository sources.  Applies the fast-path heuristics;
otherwise sums the model weight of the thirteen feature keys of the window
and decides break exactly when the sum is strictly positive. -/
def evaluateBreakpoint (eng : MlBreakEngine) (w : List Element) : Decision :=
  match fastPath eng w with
  | some d => d
  | none =>
    if 0 < sumLookup eng.fModel (featureKeys (windowBlocks w)) then Decision.breakAt
    else Decision.noBreak

/-- The scoring loop with the negative-sum early exit: after adding each
key's weight, if the partial score plus the (non-positive) sum of all
negative table weights is already strictly positive, the remaining keys
cannot pull the total back to zero or below, so the loop exits early with
a break decision. -/
def scoreLoopOpt (m : List (String × Int)) (negSum : Int) (ks : List String) (acc : Int) :
    Decision :=
  match ks with
  | [] => if 0 < acc then Decision.breakAt else Decision.noBreak
  | k :: rest =>
    let acc' := acc + modelLookup m k
    if 0 < acc' + negSum then Decision.breakAt
    else scoreLoopOpt m negSum rest acc'

/-- The boundary evaluator with the `fNegativeSum` early-exit optimization
enabled in the model path. -/
def evaluateBreakpointOpt (eng : MlBreakEngine) (w : List Element) : Decision :=
  match fastPath eng w with
  | some d => d
  | none => scoreLoopOpt eng.fModel eng.fNegativeSum (featureKeys (windowBlocks w)) 0

/-- The code point of the working string at (possibly out-of-range) index
`j`; out-of-range positions hold the sentinel code point. -/
def cpAt (cps : List UChar32) (j : Int) : UChar32 :=
  if 0 ≤ j then cps.getD j.toNat sentinelChar else sentinelChar

/-- The window element describing position `j` of the working string:
the code point there (or the sentinel) together with its block code. -/
def elementFor (blockIdOf : UChar32 → Nat) (cps : List UChar32) (j : Int) : Element :=
  Element.init.setCharAndUblock (cpAt cps j) (getUnicodeBlock blockIdOf (cpAt cps j))

/-- Modelled from the spec: the six-element context window around the
candidate boundary before code point `i` — the three preceding and the
three following positions, padded with sentinels at string edges. -/
def windowAt (blockIdOf : UChar32 → Nat) (cps : List UChar32) (i : Nat) : List Element :=
  [elementFor blockIdOf cps ((i : Int) - 3),
   elementFor blockIdOf cps ((i : Int) - 2),
   elementFor blockIdOf cps ((i : Int) - 1),
   elementFor blockIdOf cps (i : Int),
   elementFor blockIdOf cps ((i : Int) + 1),
   elementFor blockIdOf cps ((i : Int) + 2)]

/-- The UTF-16 code-unit index in the working string of the boundary
before code point `i`: the code units occupied by the first `i` code
points. -/
def codeUnitIndex (cps : List UChar32) (i : Nat) : Nat :=
  ((cps.take i).map charLength).sum

/-- One scan step of the range segmenter: evaluate the boundary before
code point `i`; on a break decision translate the code-unit index through
the offset map, append the native offset and increment the accumulated
break count; otherwise leave the state unchanged. -/
def breakStep (ev : List Element → Decision) (blockIdOf : UChar32 → Nat)
    (cps : List UChar32) (offsetMap : Nat → Int) (st : List Int × Nat) (i : Nat) :
    List Int × Nat :=
  if ev (windowAt blockIdOf cps i) = Decision.breakAt then
    (st.1 ++ [offsetMap (codeUnitIndex cps i)], st.2 + 1)
  else st

/-- The interior boundary positions of a working string of `n` code
points: before code point `i` for `1 ≤ i ≤ n - 2` — never at the very
first or the very last code point of the range. -/
def interiorPositions (n : Nat) : List Nat := List.range' 1 (n - 2)

/-- Modelled from the spec: body of `MlBreakEngine::divideUpRange` is
missing from the repository sources.  With fewer than two code points the
result is empty; otherwise the working string is scanned left to right,
the evaluator `ev` is consulted at every interior position with the
current context window, and accepted boundaries are translated through
the offset map and appended in scan order, alongside the break count. -/
def divideUpRangeWith (ev : List Element → Decision) (blockIdOf : UChar32 → Nat)
    (cps : List UChar32) (offsetMap : Nat → Int) : List Int × Nat :=
  if cps.length < 2 then ([], 0)
  else (interiorPositions cps.length).foldl (breakStep ev blockIdOf cps offsetMap) ([], 0)

/-- Function `MlBreakEngine::divideUpRange` (spec-modelled), driven by the plain
boundary evaluator. -/
def divideUpRange (eng : MlBreakEngine) (blockIdOf : UChar32 → Nat)
    (cps : List UChar32) (offsetMap : Nat → Int) : List Int × Nat :=
  divideUpRangeWith (evaluateBreakpoint eng) blockIdOf cps offsetMap

/-- Variant of `divideUpRange` with the negative-sum early-exit optimization enabled
in the evaluator. -/
def divideUpRangeOpt (eng : MlBreakEngine) (blockIdOf : UChar32 → Nat)
    (cps : List UChar32) (offsetMap : Nat → Int) : List Int × Nat :=
  divideUpRangeWith (evaluateBreakpointOpt eng) blockIdOf cps offsetMap

/-- Removal of every entry with the given key from the weight table
(a proof-side helper for reasoning about `negativeSum`). -/
def eraseKey (m : List (String × Int)) (k : String) : List (String × Int) :=
  match m with
  | [] => []
  | (k', v) :: rest => if k' = k then eraseKey rest k else (k', v) :: eraseKey rest k

/-- The optional native offset produced at interior position `i`: the
translated code-unit index when the evaluator decides break, nothing
otherwise. -/
def pickBreak (ev : List Element → Decision) (blockIdOf : UChar32 → Nat)
    (cps : List UChar32) (offsetMap : Nat → Int) (i : Nat) : Option Int :=
  if ev (windowAt blockIdOf cps i) = Decision.breakAt then
    some (offsetMap (codeUnitIndex cps i))
  else none

/-- The single error kind of engine construction. -/
inductive MlError where
  | modelLoadError : MlError
deriving DecidableEq, Repr

/-- Modelled from the spec: the logical shape of the model resource — it
may be missing, truncated, or a sequence of records each of which is
either a well-formed `(featureKey, weight)` pair or malformed (`none`). -/
inductive ModelResource where
  | missing : ModelResource
  | truncated : ModelResource
  | records : List (Option (String × Int)) → ModelResource

/-- Parsing of the record sequence: the first malformed record aborts the
load with a `ModelLoadError`. -/
def parseRecords (rs : List (Option (String × Int))) :
    Except MlError (List (String × Int)) :=
  match rs with
  | [] => Except.ok []
  | none :: _ => Except.error MlError.modelLoadError
  | some r :: rest => (parseRecords rest).map (fun m => r :: m)

/-- Modelled from the spec: body of `MlBreakEngine::loadMLModel` is
missing from the repository sources.  A missing or truncated resource and
any malformed record are fatal; on success the weight table and the
derived negative-weight sum are produced. -/
def loadMLModel (res : ModelResource) : Except MlError (List (String × Int) × Int) :=
  match res with
  | ModelResource.missing => Except.error MlError.modelLoadError
  | ModelResource.truncated => Except.error MlError.modelLoadError
  | ModelResource.records rs => (parseRecords rs).map (fun m => (m, negativeSum m))

/-- Modelled from the spec: the `MlBreakEngine` constructor — it stores
the two character-class sets and loads the model resource, surfacing a
load failure as a failed construction that yields no usable instance. -/
def mkMlBreakEngine (digitSet closeSet : UChar32 → Bool) (res : ModelResource) :
    Except MlError MlBreakEngine :=
  (loadMLModel res).map (fun p => ⟨digitSet, closeSet, p.1, p.2⟩)

/-- The empty character-class set. -/
def emptySet : UChar32 → Bool := fun _ => false

/-- A toy weight table with a single trigram entry of weight `+5`,
matching the spec's concrete scenario B. -/
def toyModel : List (String × Int) := [("TW2:001001001", 5)]

/-- A concrete engine built over the toy model with both character-class
sets empty. -/
def toyEngine : MlBreakEngine := ⟨emptySet, emptySet, toyModel, negativeSum toyModel⟩

/-- A toy block-property facility classifying every code point into
Unicode block 1. -/
def toyBlockIdOf : UChar32 → Nat := fun _ => 1

/-- A four-code-point working string all of whose characters share one
Unicode block. -/
def toyCps : List UChar32 := [0x3042, 0x3043, 0x3044, 0x3045]

/-- The identity offset map for a range starting at native offset 0. -/
def toyOffsetMap : Nat → Int := fun u => (u : Int)

/-! Lemmas about the weight table. -/

/-- A key absent from the table looks up to zero. -/
theorem modelLookup_eq_zero (m : List (String × Int)) (k : String)
    (h : k ∉ m.map Prod.fst) : modelLookup m k = 0 := by
  induction m with
  | nil => rfl
  | cons p rest ih =>
    obtain ⟨k', v⟩ := p
    simp only [List.map_cons, List.mem_cons, not_or] at h
    simp only [modelLookup]
    rw [if_neg (fun hk => h.1 hk.symm)]
    exact ih h.2

/-- The sum of the negative weights is never positive. -/
theorem negativeSum_nonpos (m : List (String × Int)) : negativeSum m ≤ 0 := by
  induction m with
  | nil => simp [negativeSum]
  | cons p rest ih =>
    obtain ⟨k, v⟩ := p
    simp only [negativeSum]
    split <;> omega

/-- Erasing a key that is not present leaves the table unchanged. -/
theorem eraseKey_not_mem (m : List (String × Int)) (k : String)
    (h : k ∉ m.map Prod.fst) : eraseKey m k = m := by
  induction m with
  | nil => rfl
  | cons p rest ih =>
    obtain ⟨k', v⟩ := p
    simp only [List.map_cons, List.mem_cons, not_or] at h
    simp only [eraseKey]
    rw [if_neg (fun hk => h.1 hk.symm), ih h.2]

/-- Erasing one key does not disturb lookups of any other key. -/
theorem modelLookup_eraseKey (m : List (String × Int)) (k k' : String) (h : k' ≠ k) :
    modelLookup (eraseKey m k) k' = modelLookup m k' := by
  induction m with
  | nil => rfl
  | cons p rest ih =>
    obtain ⟨k0, v⟩ := p
    simp only [eraseKey]
    by_cases hk : k0 = k
    · rw [if_pos hk, ih]
      simp only [modelLookup]
      rw [if_neg (fun he => h (he.symm.trans hk))]
    · rw [if_neg hk]
      simp only [modelLookup]
      by_cases hk' : k0 = k'
      · rw [if_pos hk', if_pos hk']
      · rw [if_neg hk', if_neg hk', ih]

/-- Erasure yields a sublist of the table. -/
theorem eraseKey_sublist (m : List (String × Int)) (k : String) :
    (eraseKey m k).Sublist m := by
  induction m with
  | nil => simp [eraseKey]
  | cons p rest ih =>
    obtain ⟨k0, v⟩ := p
    simp only [eraseKey]
    by_cases hk : k0 = k
    · rw [if_pos hk]
      exact ih.trans (List.sublist_cons_self _ _)
    · rw [if_neg hk]
      exact ih.cons₂ _

/-- Erasure preserves distinctness of the table's keys. -/
theorem eraseKey_keys_nodup (m : List (String × Int)) (k : String)
    (h : (m.map Prod.fst).Nodup) : ((eraseKey m k).map Prod.fst).Nodup :=
  ((eraseKey_sublist m k).map Prod.fst).nodup h

/-- Splitting the negative-weight sum of a distinct-key table at one key:
the key's own negative contribution plus the negative-weight sum of the
table with the key erased. -/
theorem negativeSum_eraseKey (m : List (String × Int)) (k : String)
    (h : (m.map Prod.fst).Nodup) :
    negativeSum m =
      (if modelLookup m k < 0 then modelLookup m k else 0) + negativeSum (eraseKey m k) := by
  induction m with
  | nil => simp [negativeSum, modelLookup, eraseKey]
  | cons p rest ih =>
    obtain ⟨k0, v⟩ := p
    simp only [List.map_cons, List.nodup_cons] at h
    by_cases hk : k0 = k
    · have hrest : k ∉ rest.map Prod.fst := hk ▸ h.1
      simp only [negativeSum, modelLookup, eraseKey, if_pos hk, eraseKey_not_mem rest k hrest]
    · simp only [negativeSum, modelLookup, eraseKey, if_neg hk]
      rw [ih h.2]
      omega

/-- Over any list of pairwise-distinct keys, the summed lookups in a
distinct-key table are bounded below by the table's negative-weight sum:
each key can hit each (negative) table entry at most once. -/
theorem negativeSum_le_sumLookup (m : List (String × Int)) (ks : List String)
    (hm : (m.map Prod.fst).Nodup) (hks : ks.Nodup) :
    negativeSum m ≤ sumLookup m ks := by
  have key : ∀ (ks : List String) (m : List (String × Int)),
      (m.map Prod.fst).Nodup → ks.Nodup →
      negativeSum m ≤ (ks.map (fun k => if modelLookup m k < 0 then modelLookup m k else 0)).sum := by
    intro ks
    induction ks with
    | nil =>
      intro m hm _
      simpa using negativeSum_nonpos m
    | cons k rest ih =>
      intro m hm hks
      obtain ⟨hknr, hrest⟩ := List.nodup_cons.mp hks
      have h1 := negativeSum_eraseKey m k hm
      have h2 := ih (eraseKey m k) (eraseKey_keys_nodup m k hm) hrest
      have h3 : (rest.map (fun k' => if modelLookup (eraseKey m k) k' < 0 then
                    modelLookup (eraseKey m k) k' else 0)).sum
              = (rest.map (fun k' => if modelLookup m k' < 0 then modelLookup m k' else 0)).sum := by
        congr 1
        refine List.map_congr_left ?_
        intro a ha
        rw [modelLookup_eraseKey m k a (fun hak => hknr (hak ▸ ha))]
      rw [h3] at h2
      simp only [List.map_cons, List.sum_cons]
      omega
  calc negativeSum m
      ≤ (ks.map (fun k => if modelLookup m k < 0 then modelLookup m k else 0)).sum :=
        key ks m hm hks
    _ ≤ (ks.map (modelLookup m)).sum := by
        refine List.sum_le_sum ?_
        intro a _
        split <;> omega
    _ = sumLookup m ks := rfl

/-- The early-exit scoring loop agrees with the plain summed-score
decision whenever the table's keys are distinct, the pending keys are
distinct, and the pruning scalar is the table's negative-weight sum. -/
theorem scoreLoopOpt_eq (m : List (String × Int)) (hm : (m.map Prod.fst).Nodup)
    (ks : List String) (hks : ks.Nodup) (acc : Int) :
    scoreLoopOpt m (negativeSum m) ks acc =
      if 0 < acc + sumLookup m ks then Decision.breakAt else Decision.noBreak := by
  induction ks generalizing acc with
  | nil => simp [scoreLoopOpt, sumLookup]
  | cons k rest ih =>
    obtain ⟨hknr, hrest⟩ := List.nodup_cons.mp hks
    have hsum : sumLookup m (k :: rest) = modelLookup m k + sumLookup m rest := by
      simp [sumLookup]
    simp only [scoreLoopOpt]
    split
    · rename_i hexit
      have hlow : negativeSum m ≤ sumLookup m rest := negativeSum_le_sumLookup m rest hm hrest
      rw [if_pos (by omega)]
    · rename_i hexit
      rw [ih hrest]
      have hcond : (0 < acc + modelLookup m k + sumLookup m rest) ↔
          (0 < acc + sumLookup m (k :: rest)) := by rw [hsum]; omega
      by_cases hc : 0 < acc + modelLookup m k + sumLookup m rest
      · rw [if_pos hc, if_pos (hcond.mp hc)]
      · rw [if_neg hc, if_neg (fun hx => hc (hcond.mpr hx))]

/-! Lemmas about the feature keys. -/

/-- The first four characters of a key built over a four-character tag are
exactly the tag. -/
theorem data_take_four (s t : String) (h : s.data.length = 4) :
    ((s ++ t).data.take 4) = s.data := by
  rw [String.data_append, ← h, List.take_left]

/-- Mapping each feature key to its four-character tag recovers the
pattern tags, independently of the observed block codes. -/
theorem featureKeys_map_tag (blocks : List String) :
    (featureKeys blocks).map (fun s => s.data.take 4) =
      featurePatterns.map (fun p => p.1.data) := by
  simp only [featureKeys, List.map_map]
  refine List.map_congr_left ?_
  intro p hp
  simp only [Function.comp_apply, sliceKey]
  refine data_take_four _ _ ?_
  fin_cases hp <;> rfl

/-- The thirteen feature keys of any window are pairwise distinct: their
four-character tags already are. -/
theorem featureKeys_nodup (blocks : List String) : (featureKeys blocks).Nodup := by
  refine List.Nodup.of_map (fun s => s.data.take 4) ?_
  rw [featureKeys_map_tag]
  decide

/-- With a distinct-key table and the correctly derived negative-weight
sum, the early-exit evaluator and the plain evaluator agree on every
window. -/
theorem evaluateBreakpointOpt_eq (eng : MlBreakEngine)
    (hnd : (eng.fModel.map Prod.fst).Nodup)
    (hns : eng.fNegativeSum = negativeSum eng.fModel) (w : List Element) :
    evaluateBreakpointOpt eng w = evaluateBreakpoint eng w := by
  unfold evaluateBreakpointOpt evaluateBreakpoint
  cases hfp : fastPath eng w with
  | some d => rfl
  | none =>
    rw [hns, scoreLoopOpt_eq eng.fModel hnd _ (featureKeys_nodup _) 0]
    simp

/-! Lemmas about the range scan. -/

/-- The scan fold is the accumulated list of picked offsets together with
their count added to the incoming count. -/
theorem foldl_breakStep (ev : List Element → Decision) (blockIdOf : UChar32 → Nat)
    (cps : List UChar32) (offsetMap : Nat → Int) (l : List Nat) (bs : List Int) (n : Nat) :
    l.foldl (breakStep ev blockIdOf cps offsetMap) (bs, n) =
      (bs ++ l.filterMap (pickBreak ev blockIdOf cps offsetMap),
       n + (l.filterMap (pickBreak ev blockIdOf cps offsetMap)).length) := by
  induction l generalizing bs n with
  | nil => simp
  | cons i t ih =>
    rw [List.foldl_cons, List.filterMap_cons]
    by_cases h : ev (windowAt blockIdOf cps i) = Decision.breakAt
    · rw [show breakStep ev blockIdOf cps offsetMap (bs, n) i
            = (bs ++ [offsetMap (codeUnitIndex cps i)], n + 1) from by simp [breakStep, h]]
      rw [show pickBreak ev blockIdOf cps offsetMap i
            = some (offsetMap (codeUnitIndex cps i)) from by simp [pickBreak, h]]
      rw [ih]
      refine Prod.ext ?_ ?_
      · simp
      · simp
        omega
    · rw [show breakStep ev blockIdOf cps offsetMap (bs, n) i = (bs, n) from by
            simp [breakStep, h]]
      rw [show pickBreak ev blockIdOf cps offsetMap i = none from by simp [pickBreak, h]]
      rw [ih]

/-- The scan of a working string of at least two code points is the list
of picked offsets over the interior positions, with its length as the
break count. -/
theorem divideUpRangeWith_eq (ev : List Element → Decision) (blockIdOf : UChar32 → Nat)
    (cps : List UChar32) (offsetMap : Nat → Int) (h : 2 ≤ cps.length) :
    divideUpRangeWith ev blockIdOf cps offsetMap =
      ((interiorPositions cps.length).filterMap (pickBreak ev blockIdOf cps offsetMap),
       ((interiorPositions cps.length).filterMap (pickBreak ev blockIdOf cps offsetMap)).length) := by
  unfold divideUpRangeWith
  rw [if_neg (by omega), foldl_breakStep]
  simp

/-- Every code point occupies at least one code unit. -/
theorem one_le_charLength (ch : UChar32) : 1 ≤ charLength ch := by
  unfold charLength
  split <;> omega

/-- A list of code-unit counts weighs at least its length. -/
theorem length_le_sum_charLength (l : List UChar32) :
    l.length ≤ (l.map charLength).sum := by
  induction l with
  | nil => simp
  | cons a t ih =>
    simp only [List.length_cons, List.map_cons, List.sum_cons]
    have := one_le_charLength a
    omega

/-- The boundary before code point `i` sits at code-unit index at least
`i`. -/
theorem le_codeUnitIndex (cps : List UChar32) (i : Nat) (h : i ≤ cps.length) :
    i ≤ codeUnitIndex cps i := by
  have h1 := length_le_sum_charLength (cps.take i)
  rwa [List.length_take, min_eq_left h] at h1

/-- Code-unit indices grow strictly with the code-point position. -/
theorem codeUnitIndex_lt (cps : List UChar32) (i j : Nat) (hij : i < j)
    (hj : j ≤ cps.length) :
    codeUnitIndex cps i < codeUnitIndex cps j := by
  have hsplit : cps.take j = cps.take i ++ (cps.drop i).take (j - i) := by
    have h0 := List.take_add cps i (j - i)
    rwa [show i + (j - i) = j from by omega] at h0
  unfold codeUnitIndex
  rw [hsplit, List.map_append, List.sum_append]
  have hlen : ((cps.drop i).take (j - i)).length = j - i := by
    rw [List.length_take, List.length_drop]
    omega
  have h2 := length_le_sum_charLength ((cps.drop i).take (j - i))
  rw [hlen] at h2
  have h3 : 0 ≤ ((cps.take i).map charLength).sum := Nat.zero_le _
  omega

/-- A produced offset came from a break decision at its position. -/
theorem pickBreak_some (ev : List Element → Decision) (blockIdOf : UChar32 → Nat)
    (cps : List UChar32) (offsetMap : Nat → Int) (i : Nat) (x : Int)
    (h : pickBreak ev blockIdOf cps offsetMap i = some x) :
    ev (windowAt blockIdOf cps i) = Decision.breakAt ∧
      x = offsetMap (codeUnitIndex cps i) := by
  unfold pickBreak at h
  by_cases hd : ev (windowAt blockIdOf cps i) = Decision.breakAt
  · rw [if_pos hd] at h
    injection h with h
    exact ⟨hd, h.symm⟩
  · rw [if_neg hd] at h
    exact Option.noConfusion h

/-- A window whose fourth element carries a close-punctuation character is
always decided no-break. -/
theorem evaluateBreakpoint_closePunct (eng : MlBreakEngine) (e1 e2 e3 e4 e5 e6 : Element)
    (h : eng.fClosePunctuationSet e4.character = true) :
    evaluateBreakpoint eng [e1, e2, e3, e4, e5, e6] = Decision.noBreak := by
  unfold evaluateBreakpoint fastPath
  simp [h]

/-! The claims. -/

/-- Claim C1: for every six-element context window on which no fast-path
heuristic matches, the boundary evaluator decides break if and only if the
summed model weight of the thirteen feature keys is strictly greater than
zero, and decides no-break otherwise — a summed score of exactly zero
resolves to no-break. -/
theorem ml_C1 (eng : MlBreakEngine) (w : List Element) (_hw : w.length = 6)
    (hfp : fastPath eng w = none) :
    (evaluateBreakpoint eng w = Decision.breakAt ↔
      0 < sumLookup eng.fModel (featureKeys (windowBlocks w))) ∧
    (evaluateBreakpoint eng w = Decision.noBreak ↔
      sumLookup eng.fModel (featureKeys (windowBlocks w)) ≤ 0) := by
  unfold evaluateBreakpoint
  rw [hfp]
  by_cases hs : 0 < sumLookup eng.fModel (featureKeys (windowBlocks w))
  · rw [if_pos hs]
    exact ⟨⟨fun _ => hs, fun _ => rfl⟩,
           ⟨fun h => Decision.noConfusion h, fun h => absurd hs (by omega)⟩⟩
  · rw [if_neg hs]
    exact ⟨⟨fun h => Decision.noConfusion h, fun h => absurd h hs⟩,
           ⟨fun _ => by omega, fun _ => rfl⟩⟩

/-- Witness for C1, at the toy engine and the window around interior
position 2 of the toy working string. -/
theorem ml_C1_witness :
    (windowAt toyBlockIdOf toyCps 2).length = 6 ∧
    fastPath toyEngine (windowAt toyBlockIdOf toyCps 2) = none ∧
    ((evaluateBreakpoint toyEngine (windowAt toyBlockIdOf toyCps 2) = Decision.breakAt ↔
      0 < sumLookup toyEngine.fModel
            (featureKeys (windowBlocks (windowAt toyBlockIdOf toyCps 2)))) ∧
     (evaluateBreakpoint toyEngine (windowAt toyBlockIdOf toyCps 2) = Decision.noBreak ↔
      sumLookup toyEngine.fModel
            (featureKeys (windowBlocks (windowAt toyBlockIdOf toyCps 2))) ≤ 0)) :=
  ⟨by decide, by decide, ml_C1 toyEngine _ (by decide) (by decide)⟩

/-- Claim C4: the model path generates exactly thirteen feature keys —
six over single positions, three over two positions, four over three
positions, each a tag plus the block codes of a fixed contiguous window
slice — and a key absent from the loaded model contributes exactly zero
(lookup is a total function returning 0 for absent keys). -/
theorem ml_C4 (blocks : List String) (m : List (String × Int)) (k : String)
    (habs : k ∉ m.map Prod.fst) :
    (featureKeys blocks).length = 13 ∧
    (featurePatterns.filter (fun p => p.2.2 == 1)).length = 6 ∧
    (featurePatterns.filter (fun p => p.2.2 == 2)).length = 3 ∧
    (featurePatterns.filter (fun p => p.2.2 == 3)).length = 4 ∧
    (∀ p ∈ featurePatterns,
      sliceKey blocks p = p.1 ++ String.join ((blocks.drop p.2.1).take p.2.2)) ∧
    modelLookup m k = 0 := by
  refine ⟨?_, by decide, by decide, by decide, ?_, modelLookup_eq_zero m k habs⟩
  · simp [featureKeys, featurePatterns]
  · intro p _
    rfl

/-- Witness for C4, with empty block codes, the toy model, and an absent
key. -/
theorem ml_C4_witness :
    ("UW1:001" ∉ toyModel.map Prod.fst) ∧
    ((featureKeys []).length = 13 ∧
     (featurePatterns.filter (fun p => p.2.2 == 1)).length = 6 ∧
     (featurePatterns.filter (fun p => p.2.2 == 2)).length = 3 ∧
     (featurePatterns.filter (fun p => p.2.2 == 3)).length = 4 ∧
     (∀ p ∈ featurePatterns,
       sliceKey [] p = p.1 ++ String.join ((([] : List String).drop p.2.1).take p.2.2)) ∧
     modelLookup toyModel "UW1:001" = 0) :=
  ⟨by decide, ml_C4 [] toyModel "UW1:001" (by decide)⟩

/-- Claim C5: a working string with fewer than two code points yields zero
breaks and an empty output sequence. -/
theorem ml_C5 (eng : MlBreakEngine) (blockIdOf : UChar32 → Nat) (cps : List UChar32)
    (offsetMap : Nat → Int) (h : cps.length < 2) :
    divideUpRange eng blockIdOf cps offsetMap = ([], 0) := by
  unfold divideUpRange divideUpRangeWith
  rw [if_pos h]

/-- Witness for C5, on a one-code-point working string whose single
character is a surrogate pair. -/
theorem ml_C5_witness :
    ([0x20000] : List UChar32).length < 2 ∧
    divideUpRange toyEngine toyBlockIdOf [0x20000] toyOffsetMap = ([], 0) :=
  ⟨by decide, ml_C5 toyEngine toyBlockIdOf [0x20000] toyOffsetMap (by decide)⟩

/-- Claim C10: the break count returned by `divideUpRange` equals the
number of offsets it appended to the output sequence — each accepted
breakpoint appends exactly one offset and increments the count by exactly
one, and nothing else changes either. -/
theorem ml_C10 (eng : MlBreakEngine) (blockIdOf : UChar32 → Nat) (cps : List UChar32)
    (offsetMap : Nat → Int) :
    (divideUpRange eng blockIdOf cps offsetMap).2 =
      (divideUpRange eng blockIdOf cps offsetMap).1.length := by
  unfold divideUpRange
  by_cases h : cps.length < 2
  · unfold divideUpRangeWith
    rw [if_pos h]
    rfl
  · rw [divideUpRangeWith_eq _ _ _ _ (by omega)]

/-- Claim C2: in any completed call, the offsets appended to the output
are strictly increasing in the order appended, and each lies strictly
between `rangeStart` and `rangeEnd`, provided the offset map is strictly
increasing and maps the two ends of the working string to the two ends of
the native range. -/
theorem ml_C2 (eng : MlBreakEngine) (blockIdOf : UChar32 → Nat) (cps : List UChar32)
    (offsetMap : Nat → Int) (rangeStart rangeEnd : Int)
    (hmono : ∀ u v : Nat, u < v → offsetMap u < offsetMap v)
    (hstart : offsetMap 0 = rangeStart)
    (hend : offsetMap (codeUnitIndex cps cps.length) = rangeEnd) :
    (divideUpRange eng blockIdOf cps offsetMap).1.Pairwise (· < ·) ∧
    ∀ o ∈ (divideUpRange eng blockIdOf cps offsetMap).1,
      rangeStart < o ∧ o < rangeEnd := by
  unfold divideUpRange
  by_cases hlen : cps.length < 2
  · unfold divideUpRangeWith
    rw [if_pos hlen]
    exact ⟨List.Pairwise.nil, by simp⟩
  · rw [divideUpRangeWith_eq _ _ _ _ (by omega)]
    have hmem : ∀ i ∈ interiorPositions cps.length, 1 ≤ i ∧ i + 2 ≤ cps.length := by
      intro i hi
      rw [interiorPositions, List.mem_range'_1] at hi
      omega
    constructor
    · refine List.pairwise_filterMap.mpr ?_
      have hpw : (interiorPositions cps.length).Pairwise (· < ·) := by
        rw [interiorPositions]
        exact List.pairwise_lt_range' ..
      refine List.Pairwise.imp_of_mem ?_ hpw
      intro a b ha hb hab x hx y hy
      obtain ⟨_, hxv⟩ := pickBreak_some _ _ _ _ _ _ hx
      obtain ⟨_, hyv⟩ := pickBreak_some _ _ _ _ _ _ hy
      subst hxv hyv
      exact hmono _ _ (codeUnitIndex_lt cps a b hab (by have := hmem b hb; omega))
    · intro o ho
      rw [List.mem_filterMap] at ho
      obtain ⟨i, hi, hpick⟩ := ho
      obtain ⟨_, hov⟩ := pickBreak_some _ _ _ _ _ _ hpick
      obtain ⟨h1, h2⟩ := hmem i hi
      subst hov
      constructor
      · rw [← hstart]
        refine hmono 0 _ ?_
        have := le_codeUnitIndex cps i (by omega)
        omega
      · rw [← hend]
        exact hmono _ _ (codeUnitIndex_lt cps i cps.length (by omega) (le_refl _))

/-- Witness for C2, on the toy run with the identity offset map over the
native range `[0, 4)`. -/
theorem ml_C2_witness :
    (∀ u v : Nat, u < v → toyOffsetMap u < toyOffsetMap v) ∧
    toyOffsetMap 0 = 0 ∧
    toyOffsetMap (codeUnitIndex toyCps toyCps.length) = 4 ∧
    ((divideUpRange toyEngine toyBlockIdOf toyCps toyOffsetMap).1.Pairwise (· < ·) ∧
     ∀ o ∈ (divideUpRange toyEngine toyBlockIdOf toyCps toyOffsetMap).1,
       (0 : Int) < o ∧ o < 4) :=
  have hmono : ∀ u v : Nat, u < v → toyOffsetMap u < toyOffsetMap v := fun u v h => by
    simp only [toyOffsetMap]
    exact_mod_cast h
  ⟨hmono, rfl, by decide,
   ml_C2 toyEngine toyBlockIdOf toyCps toyOffsetMap 0 4 hmono rfl (by decide)⟩

/-- Claim C3: no offset produced by `divideUpRange` immediately precedes a
close-punctuation character — every produced offset is the translation of
an interior boundary whose immediately following code point is outside
`fClosePunctuationSet`, because that fast path overrides any model
score. -/
theorem ml_C3 (eng : MlBreakEngine) (blockIdOf : UChar32 → Nat) (cps : List UChar32)
    (offsetMap : Nat → Int) (o : Int)
    (ho : o ∈ (divideUpRange eng blockIdOf cps offsetMap).1) :
    ∃ i : Nat, 1 ≤ i ∧ i + 2 ≤ cps.length ∧ o = offsetMap (codeUnitIndex cps i) ∧
      eng.fClosePunctuationSet (cpAt cps (i : Int)) = false := by
  unfold divideUpRange at ho
  by_cases hlen : cps.length < 2
  · unfold divideUpRangeWith at ho
    rw [if_pos hlen] at ho
    simp at ho
  · rw [divideUpRangeWith_eq _ _ _ _ (by omega)] at ho
    rw [List.mem_filterMap] at ho
    obtain ⟨i, hi, hpick⟩ := ho
    obtain ⟨hd, hov⟩ := pickBreak_some _ _ _ _ _ _ hpick
    rw [interiorPositions, List.mem_range'_1] at hi
    refine ⟨i, by omega, by omega, hov, ?_⟩
    by_contra hcp
    rw [Bool.not_eq_false] at hcp
    have hnb : evaluateBreakpoint eng (windowAt blockIdOf cps i) = Decision.noBreak := by
      rw [windowAt]
      exact evaluateBreakpoint_closePunct eng _ _ _ _ _ _ hcp
    rw [hd] at hnb
    exact Decision.noConfusion hnb

/-- Witness for C3, at the single offset produced by the toy run. -/
theorem ml_C3_witness :
    (2 : Int) ∈ (divideUpRange toyEngine toyBlockIdOf toyCps toyOffsetMap).1 ∧
    ∃ i : Nat, 1 ≤ i ∧ i + 2 ≤ toyCps.length ∧
      (2 : Int) = toyOffsetMap (codeUnitIndex toyCps i) ∧
      toyEngine.fClosePunctuationSet (cpAt toyCps (i : Int)) = false :=
  ⟨by decide, ml_C3 toyEngine toyBlockIdOf toyCps toyOffsetMap 2 (by decide)⟩

/-- Claim C6: with a distinct-key weight table and `fNegativeSum` derived
as the sum of the table's negative weights, the scan with the early-exit
optimization applied during scoring returns exactly the same offset
sequence and count as the unoptimized scan, on every input. -/
theorem ml_C6 (eng : MlBreakEngine) (blockIdOf : UChar32 → Nat) (cps : List UChar32)
    (offsetMap : Nat → Int) (hnd : (eng.fModel.map Prod.fst).Nodup)
    (hns : eng.fNegativeSum = negativeSum eng.fModel) :
    divideUpRangeOpt eng blockIdOf cps offsetMap =
      divideUpRange eng blockIdOf cps offsetMap := by
  unfold divideUpRangeOpt divideUpRange
  rw [show evaluateBreakpointOpt eng = evaluateBreakpoint eng from
        funext (evaluateBreakpointOpt_eq eng hnd hns)]

/-- Witness for C6, on the toy run. -/
theorem ml_C6_witness :
    (toyEngine.fModel.map Prod.fst).Nodup ∧
    toyEngine.fNegativeSum = negativeSum toyEngine.fModel ∧
    divideUpRangeOpt toyEngine toyBlockIdOf toyCps toyOffsetMap =
      divideUpRange toyEngine toyBlockIdOf toyCps toyOffsetMap :=
  ⟨by decide, rfl, ml_C6 toyEngine toyBlockIdOf toyCps toyOffsetMap (by decide) rfl⟩

/-- A record sequence containing a malformed record fails to parse. -/
theorem parseRecords_malformed (rs : List (Option (String × Int))) (h : none ∈ rs) :
    parseRecords rs = Except.error MlError.modelLoadError := by
  induction rs with
  | nil => simp at h
  | cons r rest ih =>
    cases r with
    | none => rfl
    | some p =>
      have hrest : none ∈ rest := by
        cases List.mem_cons.mp h with
        | inl h0 => exact absurd h0 (by simp)
        | inr h0 => exact h0
      simp only [parseRecords, ih hrest]
      rfl

/-- Claim C7: when the model resource is missing, truncated, or contains a
malformed record, construction of the engine fails with a
`ModelLoadError` surfaced through the constructor's result, and no engine
instance is produced that could be used for scoring. -/
theorem ml_C7 (digitSet closeSet : UChar32 → Bool) (res : ModelResource)
    (hbad : res = ModelResource.missing ∨ res = ModelResource.truncated ∨
      ∃ rs, res = ModelResource.records rs ∧ none ∈ rs) :
    mkMlBreakEngine digitSet closeSet res = Except.error MlError.modelLoadError := by
  rcases hbad with h | h | ⟨rs, hres, hmal⟩
  · subst h
    rfl
  · subst h
    rfl
  · subst hres
    have hp := parseRecords_malformed rs hmal
    simp only [mkMlBreakEngine, loadMLModel, hp]
    rfl

/-- Witness for C7, with a missing model resource. -/
theorem ml_C7_witness :
    (ModelResource.missing = ModelResource.missing ∨
      ModelResource.missing = ModelResource.truncated ∨
      ∃ rs, ModelResource.missing = ModelResource.records rs ∧ none ∈ rs) ∧
    mkMlBreakEngine emptySet emptySet ModelResource.missing =
      Except.error MlError.modelLoadError :=
  ⟨Or.inl rfl, ml_C7 emptySet emptySet ModelResource.missing (Or.inl rfl)⟩

/-- Among decimal digits, only 9 renders as the character 9. -/
theorem digitChar_eq_nine : ∀ d : Nat, d < 10 → Nat.digitChar d = '9' → d = 9 := by
  decide

/-- A block id below 1000 whose 3-digit rendering coincides with that of
999 is 999 itself. -/
theorem pad3_inj999 (n : Nat) (hn : n < 1000) (h : pad3 n = pad3 999) : n = 999 := by
  unfold pad3 at h
  injection h with hdata
  injection hdata with h1 hdata
  injection hdata with h2 hdata
  injection hdata with h3 _
  have h9 : Nat.digitChar (999 / 100 % 10) = '9' := by decide
  have h9' : Nat.digitChar (999 / 10 % 10) = '9' := by decide
  have h9'' : Nat.digitChar (999 % 10) = '9' := by decide
  have e1 := digitChar_eq_nine (n / 100 % 10) (Nat.mod_lt _ (by omega)) (h1.trans h9)
  have e2 := digitChar_eq_nine (n / 10 % 10) (Nat.mod_lt _ (by omega)) (h2.trans h9')
  have e3 := digitChar_eq_nine (n % 10) (Nat.mod_lt _ (by omega)) (h3.trans h9'')
  omega

/-- Claim C8: for every valid (non-sentinel) code point whose block id is
a real Unicode block identifier (below 999), `getUnicodeBlock` succeeds
and returns the block id as a fixed-width zero-padded 3-digit decimal
string (block id 1 renders as "001"), while the reserved sentinel code
point maps to the fixed sentinel code, which differs from every real
block code. -/
theorem ml_C8 (blockIdOf : UChar32 → Nat) (ch : UChar32)
    (hch : ch ≠ sentinelChar) (hid : blockIdOf ch < 999) :
    getUnicodeBlock blockIdOf ch = pad3 (blockIdOf ch) ∧
    (getUnicodeBlock blockIdOf ch).length = 3 ∧
    pad3 1 = "001" ∧
    getUnicodeBlock blockIdOf sentinelChar = sentinelBlockCode ∧
    getUnicodeBlock blockIdOf sentinelChar ≠ getUnicodeBlock blockIdOf ch := by
  have hb : getUnicodeBlock blockIdOf ch = pad3 (blockIdOf ch) := by
    unfold getUnicodeBlock
    rw [if_neg hch]
  have hsent : getUnicodeBlock blockIdOf sentinelChar = sentinelBlockCode := by
    unfold getUnicodeBlock
    rw [if_pos rfl]
  refine ⟨hb, ?_, by decide, hsent, ?_⟩
  · rw [hb]
    rfl
  · rw [hb, hsent]
    intro heq
    have h999 : pad3 (blockIdOf ch) = pad3 999 := by
      rw [← heq]
      rfl
    have := pad3_inj999 (blockIdOf ch) (by omega) h999
    omega

/-- Witness for C8, at a Hiragana code point classified into block 1. -/
theorem ml_C8_witness :
    (0x3042 : UChar32) ≠ sentinelChar ∧
    toyBlockIdOf 0x3042 < 999 ∧
    (getUnicodeBlock toyBlockIdOf 0x3042 = pad3 (toyBlockIdOf 0x3042) ∧
     (getUnicodeBlock toyBlockIdOf 0x3042).length = 3 ∧
     pad3 1 = "001" ∧
     getUnicodeBlock toyBlockIdOf sentinelChar = sentinelBlockCode ∧
     getUnicodeBlock toyBlockIdOf sentinelChar ≠ getUnicodeBlock toyBlockIdOf 0x3042) :=
  ⟨by decide, by decide, ml_C8 toyBlockIdOf 0x3042 (by decide) (by decide)⟩

/-- Counterexample to claim C9 as stated: the element built from the
non-surrogate Hiragana character U+3042 and its 3-digit block code "001"
reports length 3, not the character's code-unit count 1 — `getLength`
returns the stored block-code string's length, as the header documents
("@return The unicode block length"). -/
theorem ml_C9_counterexample :
    ¬ ((Element.init.setCharAndUblock 0x3042 (pad3 1)).getLength = charLength 0x3042) := by
  decide

/-- Claim C9 (amended): every `Element`, once created through
`setCharAndUblock`, records the code point value and the canonical block
code of the classified character, and its length accessor reports the
length of the stored block-code string (3 for the 3-digit codes produced
by the block classifier), not the character's code-unit count. -/
theorem ml_C9 (e : Element) (ch : UChar32) (ub : String) :
    (e.setCharAndUblock ch ub).getCharacter = ch ∧
    (e.setCharAndUblock ch ub).getUblock = ub ∧
    (e.setCharAndUblock ch ub).getLength = ub.length ∧
    ∀ n : Nat, (e.setCharAndUblock ch (pad3 n)).getLength = 3 :=
  ⟨rfl, rfl, rfl, fun _ => rfl⟩
